import Mathlib

/-!
# Verification of the librealgebra core against its specification

This file gives a shallow embedding, in Lean 4, of the parts of the
librealgebra sources (crates `la-term`, `la-parse`, `la-simplify`) that the
specification talks about, and proves or refutes the specified properties.

Modelling conventions:

* Terms are modelled by the inductive type `LTerm`.  Reference counting and
  the heap are not modelled; instead, the one fact the code extracts from the
  heap — pointer equality of a simplification result with its input — is
  tracked explicitly as a boolean alongside each simplifier result.  This is
  faithful because (a) symbols are interned (`Symbols::get` in
  `la-term/src/symbol.rs`), so a term is pointer-equal to an interned symbol
  iff it is a symbol term with the same name, and (b) a builtin handler only
  ever returns freshly allocated terms or shared constant terms, never the
  application object it was dispatched from, so a `Some` result of
  `simplify_application` is never pointer-equal to the input application.
* Machine integers: the 16-bit De Bruijn cache is a `Nat` kept below `2 ^ 16`,
  with the `u16` operations written out; `i32` integer payloads are `Int`
  (the claims only use small literals, and `i32` parsing checks the bound).
* The recursion budget (`Cell<usize>` in `la-simplify/src/lib.rs`) is
  threaded as an explicit fuel argument.  The scoped `Guard` in `recurse`
  restores the previous value on every exit path, which is exactly what
  passing the caller's fuel value down and keeping it unchanged models.
  The `limit - 1` subtraction in `recurse` is modelled with an explicit
  underflow outcome so that its (un)reachability can be proved.
* Panics (`todo!()`, `panic_any(StopRequested)`, underflow of `limit - 1`)
  are modelled as the `Crash` error of an `Except`.
-/

deriving instance DecidableEq for Except

namespace LibreAlgebra

/-! ## De Bruijn caches (`la-term/src/variable.rs`)

A cache is the `bits : u16` field, kept as a `Nat < 65536`.
`0xFFFF` is the reserved `UNKNOWN` state. -/

/-- `DeBruijnCache::UNKNOWN`, the all-ones 16-bit pattern. -/
def cacheUnknown : Nat := 65535

/-- `DeBruijnCache::EMPTY`. -/
def cacheEmpty : Nat := 0

/-- `DeBruijnCache::is_unknown`. -/
def cacheIsUnknown (b : Nat) : Bool := b == cacheUnknown

/-- `DeBruijnCache::contains`. -/
def cacheContains (b : Nat) (i : Nat) : Option Bool :=
  if cacheIsUnknown b then none
  else if 16 ≤ i then some false
  else some (b.testBit i)

/-- `DeBruijnCache::insert`. -/
def cacheInsert (b : Nat) (i : Nat) : Nat :=
  if 16 ≤ i then cacheUnknown else b ||| (1 <<< i)

/-- `impl BitOr for DeBruijnCache` (bitwise union). -/
def cacheOr (a b : Nat) : Nat := a ||| b

/-- `impl Shr<u32> for DeBruijnCache`: `checked_shr` on `u16` yields `None`
(so `unwrap_or(0)` yields `0`) for shifts of 16 or more; the unknown state is
preserved. -/
def cacheShr (b : Nat) (k : Nat) : Nat :=
  if cacheIsUnknown b then b
  else if 16 ≤ k then 0
  else b >>> k

/-! ## Terms (`la-term/src/lib.rs` and the per-kind modules)

One constructor per `Kind`.  Symbol terms are identified by their name,
which by interning determines the allocation. -/

/-- `la_term::lambda::Parameter`; `strict = true` models
`Strictness::Strict`, `false` models `Strictness::NonStrict`. -/
structure Param where
  strict : Bool
  name : String
deriving DecidableEq, Repr

/-- A term; one constructor per `la_term::object::Kind`. -/
inductive LTerm where
  | app (fn : LTerm) (args : List LTerm)
  | integer (v : Int)
  | lam (params : List Param) (body : LTerm)
  | str (bytes : List Nat)
  | symbol (name : String)
  | var (i : Nat)

mutual

/-- Structural equality test on terms (spec §8 "structural equivalence"). -/
def beqT : LTerm → LTerm → Bool
  | .app f1 a1, .app f2 a2 => beqT f1 f2 && beqL a1 a2
  | .integer v1, .integer v2 => v1 == v2
  | .lam p1 b1, .lam p2 b2 => p1 == p2 && beqT b1 b2
  | .str s1, .str s2 => s1 == s2
  | .symbol n1, .symbol n2 => n1 == n2
  | .var i1, .var i2 => i1 == i2
  | _, _ => false

/-- Structural equality test on argument lists. -/
def beqL : List LTerm → List LTerm → Bool
  | [], [] => true
  | t :: ts, u :: us => beqT t u && beqL ts us
  | _, _ => false

end

mutual

theorem beqT_iff : ∀ a b : LTerm, beqT a b = true ↔ a = b
  | .app f1 a1, .app f2 a2 => by
    simp only [beqT, Bool.and_eq_true, beqT_iff f1 f2, beqL_iff a1 a2,
      LTerm.app.injEq]
  | .integer v1, .integer v2 => by simp [beqT]
  | .lam p1 b1, .lam p2 b2 => by
    simp only [beqT, Bool.and_eq_true, beq_iff_eq, beqT_iff b1 b2,
      LTerm.lam.injEq]
  | .str s1, .str s2 => by simp [beqT]
  | .symbol n1, .symbol n2 => by simp [beqT]
  | .var i1, .var i2 => by simp [beqT]
  | .app _ _, .integer _ | .app _ _, .lam _ _ | .app _ _, .str _
  | .app _ _, .symbol _ | .app _ _, .var _
  | .integer _, .app _ _ | .integer _, .lam _ _ | .integer _, .str _
  | .integer _, .symbol _ | .integer _, .var _
  | .lam _ _, .app _ _ | .lam _ _, .integer _ | .lam _ _, .str _
  | .lam _ _, .symbol _ | .lam _ _, .var _
  | .str _, .app _ _ | .str _, .integer _ | .str _, .lam _ _
  | .str _, .symbol _ | .str _, .var _
  | .symbol _, .app _ _ | .symbol _, .integer _ | .symbol _, .lam _ _
  | .symbol _, .str _ | .symbol _, .var _
  | .var _, .app _ _ | .var _, .integer _ | .var _, .lam _ _
  | .var _, .str _ | .var _, .symbol _ => by simp [beqT]

theorem beqL_iff : ∀ a b : List LTerm, beqL a b = true ↔ a = b
  | [], [] => by simp [beqL]
  | t :: ts, u :: us => by
    simp only [beqL, Bool.and_eq_true, beqT_iff t u, beqL_iff ts us,
      List.cons.injEq]
  | [], _ :: _ => by simp [beqL]
  | _ :: _, [] => by simp [beqL]

end

instance : DecidableEq LTerm :=
  fun a b => decidable_of_iff (beqT a b = true) (beqT_iff a b)

mutual

/-- The De Bruijn cache stored in a term's header at construction time.

The `Variable`, `Symbol` and `String` equations are translated from the
constructors in `variable.rs`, `symbol.rs` and `string.rs`
(`EMPTY.insert(de_bruijn)` resp. `EMPTY`).

Modelled from the spec: the `Application`, `Lambda` and `Integer` equations.
The cache-carrying two-argument `Header::new(kind, cache)` that those three
constructors in `variable.rs`/`symbol.rs`/`string.rs` already call is missing
from the `lib.rs` snapshot in the sources (its `Header` lacks the
`de_bruijn_cache` field), as is the cache computation inside
`Term::application`, `Term::lambda` and `Term::integer_i32`; spec §3.3 gives
the composition rule: Application is the OR of the caches of the function and
each argument, Lambda is the body's cache shifted right by the parameter
count, and Integer is EMPTY. -/
def dbCache : LTerm → Nat
  | .var i => cacheInsert cacheEmpty i
  | .app f args => cacheOr (dbCache f) (dbCacheList args)
  | .lam ps body => cacheShr (dbCache body) ps.length
  | .integer _ => cacheEmpty
  | .str _ => cacheEmpty
  | .symbol _ => cacheEmpty

/-- OR of the caches of a list of argument terms. -/
def dbCacheList : List LTerm → Nat
  | [] => cacheEmpty
  | t :: ts => cacheOr (dbCache t) (dbCacheList ts)

end

mutual

/-- Whether variable `i` occurs free in a term: the reference notion of a
free occurrence against which the cache is judged (indices are shifted by
the parameter count when descending under a lambda, per spec §3.3). -/
def freeOccur (i : Nat) : LTerm → Bool
  | .var j => j == i
  | .app f args => freeOccur i f || freeOccurList i args
  | .lam ps body => freeOccur (i + ps.length) body
  | .integer _ => false
  | .str _ => false
  | .symbol _ => false

/-- Whether variable `i` occurs free in any term of a list. -/
def freeOccurList (i : Nat) : List LTerm → Bool
  | [] => false
  | t :: ts => freeOccur i t || freeOccurList i ts

end

/-! ## Simplifier (`la-simplify/src/lib.rs` and `src/builtins/`)

Panics are modelled by `Crash`; a simplifier result carries the term together
with the pointer-equality-with-input flag (see the file comment). -/

/-- The ways a simplification can fail to return: `todo` models the
`todo!()` in `simplify_application`, `stopped` models
`panic_any(StopRequested)`, and `underflow` models the debug-mode overflow
panic of `limit - 1` in `recurse` when the current budget is zero. -/
inductive Crash where
  | todo
  | stopped
  | underflow
deriving DecidableEq, Repr

/-- Result of `simplify`: the term, and whether it is pointer-equal to the
input term. -/
abbrev SRes := Except Crash (LTerm × Bool)

/-- Result of a builtin handler (`Option<Term>` in the source). -/
abbrev HRes := Except Crash (Option LTerm)

/-- The parts of `la_simplify::Context` the embedded code consults, besides
the recursion budget (threaded separately as fuel): the session's
definitions map (keyed by interned symbol, hence by name) and the
cooperative stop flag.  The builtin registry and constants table are fixed
by `Builtins::new` / `Constants::new` and are inlined below. -/
structure SCtx where
  session : List (String × LTerm)
  stopRequested : Bool

/-- `Session::definitions.get(symbol)`: lookup by interned symbol, i.e. by
name. -/
def sessionLookup (c : SCtx) (nm : String) : Option LTerm :=
  (c.session.find? (fun p => p.1 == nm)).map Prod.snd

/-- Which symbols `Builtins::new` (in `builtins/mod.rs`) registers handlers
for: exactly `Derivative`, `Cos` and `Sin`. -/
def isBuiltinName (nm : String) : Bool :=
  nm == "Derivative" || nm == "Cos" || nm == "Sin"

/-- `Constants::integer_0`. -/
def integer_0 : LTerm := .integer 0

/-- `Constants::integer_1`. -/
def integer_1 : LTerm := .integer 1

/-- `Constants::integer_neg_1`. -/
def integer_neg_1 : LTerm := .integer (-1)

/-- `Constants::parameters_sx`: the one-element strict parameter list `|x|`. -/
def parameters_sx : List Param := [⟨true, "x"⟩]

/-- `Constants::lambda_neg_Sin`: the term `|x| Multiply(-1, Sin(x))`. -/
def lambda_neg_Sin : LTerm :=
  .lam parameters_sx
    (.app (.symbol "Multiply")
      [integer_neg_1, .app (.symbol "Sin") [.var 0]])

/-- `builtins::Derivative::is_constant`: read the term's header cache. -/
def isConstant (p : Nat) (t : LTerm) : Option Bool :=
  (cacheContains (dbCache t) p).map (fun b => b == false)

/-- `builtins::Derivative::make_add`. -/
def makeAdd : List LTerm → LTerm
  | [] => integer_0
  | [t] => t
  | ts => .app (.symbol "Add") ts

mutual

/-- `builtins::Derivative::of_term`, for a fixed `recurse` closure `recF`
(the context's budget at the call site is captured in `recF`). -/
def ofTerm (recF : LTerm → SRes) (c : SCtx) (p : Nat) (t : LTerm) : HRes :=
  if isConstant p t = some true then .ok (some integer_0)
  else if t = .var p then .ok (some integer_1)
  else
    match t with
    | .app f args =>
      if f = .symbol "Add" then
        match ofAddCollect recF c p args with
        | .error e => .error e
        | .ok none => .ok none
        | .ok (some ds) =>
          match recF (makeAdd ds) with
          | .error e => .error e
          | .ok (r, _) => .ok (some r)
      else .ok none
    | _ => .ok none

/-- The filtered `map(of_term).collect::<Option<SmallVec>>()` iterator chain
of `of_add`, run left to right and stopping at the first failure: terms
whose cache does not prove the variable present
(`is_constant(parameter, term) != Some(false)`) are skipped by the
`filter`, the kept ones are differentiated. -/
def ofAddCollect (recF : LTerm → SRes) (c : SCtx) (p : Nat) :
    List LTerm → Except Crash (Option (List LTerm))
  | [] => .ok (some [])
  | t :: rest =>
    if isConstant p t == some false then
      match ofTerm recF c p t with
      | .error e => .error e
      | .ok none => .ok none
      | .ok (some d) =>
        match ofAddCollect recF c p rest with
        | .error e => .error e
        | .ok none => .ok none
        | .ok (some ds) => .ok (some (d :: ds))
    else ofAddCollect recF c p rest

end

/-- `builtins::Derivative::of_add`: differentiate the kept summands, then
simplify the rebuilt sum through `recurse`.  (`of_term` dispatches to
exactly this expression when the head of the application is the interned
`Add` symbol.) -/
def ofAdd (recF : LTerm → SRes) (c : SCtx) (p : Nat) (ts : List LTerm) :
    HRes :=
  match ofAddCollect recF c p ts with
  | .error e => .error e
  | .ok none => .ok none
  | .ok (some ds) =>
    match recF (makeAdd ds) with
    | .error e => .error e
    | .ok (r, _) => .ok (some r)

/-- `builtins::Derivative::of_function`.  The two `eq_symbol` tests compare
against the interned `Sin` and `Cos` constants, i.e. by name. -/
def ofFunction (recF : LTerm → SRes) (c : SCtx) (f : LTerm) : HRes :=
  if f = .symbol "Sin" then .ok (some (.symbol "Cos"))
  else if f = .symbol "Cos" then .ok (some lambda_neg_Sin)
  else
    match f with
    | .lam ps body =>
      if ps.length = 1 then
        match ofTerm recF c 0 body with
        | .error e => .error e
        | .ok none => .ok none
        | .ok (some bd) => .ok (some (.lam ps bd))
      else .ok none
    | _ => .ok none

/-- `builtins::Cos::simplify`.  The arity test `arguments.len() != 1` is the
non-singleton match; warning about the arity is a `TODO` in the source and
nothing is emitted (the `Warner` trait has no methods). -/
def cosHandler (recF : LTerm → SRes) (c : SCtx) (args : List LTerm) : HRes :=
  match args with
  | [x] =>
    match recF x with
    | .error e => .error e
    | .ok (op, same) =>
      if op = .integer 0 then .ok (some integer_1)
      else if op = .symbol "Pi" then .ok (some integer_neg_1)
      else if same then .ok none
      else .ok (some (.app (.symbol "Cos") [op]))
  | _ => .ok none

/-- `builtins::Sin::simplify`. -/
def sinHandler (recF : LTerm → SRes) (c : SCtx) (args : List LTerm) : HRes :=
  match args with
  | [x] =>
    match recF x with
    | .error e => .error e
    | .ok (op, same) =>
      if op = .integer 0 then .ok (some integer_0)
      else if op = .symbol "Pi" then .ok (some integer_0)
      else if same then .ok none
      else .ok (some (.app (.symbol "Sin") [op]))
  | _ => .ok none

/-- `builtins::Derivative::simplify`. -/
def derivativeHandler (recF : LTerm → SRes) (c : SCtx) (args : List LTerm) :
    HRes :=
  match args with
  | [a] =>
    match recF a with
    | .error e => .error e
    | .ok (f, same) =>
      match ofFunction recF c f with
      | .error e => .error e
      | .ok (some d) => .ok (some d)
      | .ok none =>
        if same then .ok none
        else .ok (some (.app (.symbol "Derivative") [f]))
  | _ => .ok none

/-- `c.builtins.get(builtin).and_then(|b| b(c, arguments))` in
`simplify_application`: dispatch through the registry built by
`Builtins::new`; an unregistered symbol yields `None`. -/
def appDispatch (recF : LTerm → SRes) (c : SCtx) (nm : String)
    (args : List LTerm) : HRes :=
  if nm = "Derivative" then derivativeHandler recF c args
  else if nm = "Cos" then cosHandler recF c args
  else if nm = "Sin" then sinHandler recF c args
  else .ok none

/-- `simplify_application`: simplify the function through `recurse`; if it is
a symbol, dispatch, otherwise the source hits `todo!()`. -/
def goApplication (recF : LTerm → SRes) (c : SCtx) (f : LTerm)
    (args : List LTerm) : HRes :=
  match recF f with
  | .error e => .error e
  | .ok (f2, _) =>
    match f2 with
    | .symbol nm => appDispatch recF c nm args
    | _ => .error .todo

/-- `simplify_symbol`: consult the session; undefined and reserved
(`s := s`) symbols are returned unchanged (the same interned object),
otherwise the definition is simplified through `recurse`.  The result is
pointer-equal to the input symbol exactly when it is a symbol of the same
name, because symbols are interned. -/
def goSymbol (recF : LTerm → SRes) (c : SCtx) (nm : String) : SRes :=
  match sessionLookup c nm with
  | none => .ok (.symbol nm, true)
  | some d =>
    if d = .symbol nm then .ok (.symbol nm, true)
    else
      match recF d with
      | .error e => .error e
      | .ok (r, _) => .ok (r, decide (r = .symbol nm))

/-- The body of `simplify` after the budget test, with `recF` standing for
`recurse` at the current budget.  A `Some` from `simplify_application`
replaces the term (`unwrap_or`), and is never pointer-equal to the input
application (handlers only see the argument slice and return fresh or
constant terms). -/
def goSimplify (recF : LTerm → SRes) (c : SCtx) (t : LTerm) : SRes :=
  if c.stopRequested then .error .stopped
  else
    match t with
    | .app f args =>
      match goApplication recF c f args with
      | .error e => .error e
      | .ok none => .ok (t, true)
      | .ok (some r) => .ok (r, false)
    | .symbol nm => goSymbol recF c nm
    | _ => .ok (t, true)

/-- `simplify` at a given recursion budget: a zero budget returns the input
unchanged (with a recursion-limit warning that is a `TODO` in the source);
otherwise the body runs with `recurse` bound to `simplify` at the
decremented budget, which is what the `Cell` decrement/restore in `recurse`
amounts to. -/
def simplifyA : Nat → SCtx → LTerm → SRes
  | 0, _, t => .ok (t, true)
  | n + 1, c, t => goSimplify (simplifyA n c) c t

/-- `recurse`: `limit - 1` underflows (a panic under debug assertions) when
the current budget is zero; otherwise it is `simplify` at the decremented
budget, the previous value being restored by the scoped `Guard` on every
exit path. -/
def recurseA (m : Nat) (c : SCtx) (t : LTerm) : SRes :=
  if m = 0 then .error .underflow else simplifyA (m - 1) c t

end LibreAlgebra

namespace LibreAlgebra

/-! ## Lexer (`la-parse/src/lex.rs`)

The `logos` token rules: whitespace `[\\t\\n\\v\\f\\r ]+` is skipped, the
single-character tokens, a decimal integer `[0-9]+` whose callback fails
(producing the error token) when the value does not fit in an `i32`, a
double-quoted string `"[^"]+"` with a non-empty body and no escapes, and an
identifier `[A-Za-z]+`; any other input produces the error token. -/

/-- A lexer token (`la_parse::Token`); `errTok` is `Token::Error`. -/
inductive Tok where
  | comma
  | pipe
  | tilde
  | lparen
  | rparen
  | int (v : Int)
  | strT (bytes : List Nat)
  | ident (nm : String)
  | errTok
deriving DecidableEq, Repr

/-- The skipped whitespace class `[\\t\\n\\v\\f\\r ]`. -/
def isWsChar (c : Char) : Bool :=
  c == ' ' || (9 ≤ c.toNat && c.toNat ≤ 13)

/-- Numeric value of a decimal digit string. -/
def digitsVal (ds : List Char) : Nat :=
  ds.foldl (fun a c => a * 10 + (c.toNat - 48)) 0

/-- `lex_integer`: `i32::from_str_radix(.., 10).ok()`; the digits carry no
sign, so the parse succeeds exactly when the value is at most `i32::MAX`,
and a failed callback makes `logos` emit the error token. -/
def lexInt (ds : List Char) : Tok :=
  if digitsVal ds ≤ 2147483647 then .int (Int.ofNat (digitsVal ds))
  else .errTok

/-- The double-quote character. -/
def quoteChar : Char := Char.ofNat 34

/-- Maximal-munch tokenisation of the input character stream.  The fuel
argument is a totality device only: every recursive call is on a strictly
shorter character list, so `length + 1` fuel (as passed by `lexStr`) never
runs out. -/
def lexGoF : Nat → List Char → List Tok
  | 0, _ => []
  | _, [] => []
  | fuel + 1, c :: cs =>
    if isWsChar c then lexGoF fuel cs
    else if c == ',' then .comma :: lexGoF fuel cs
    else if c == '|' then .pipe :: lexGoF fuel cs
    else if c == '~' then .tilde :: lexGoF fuel cs
    else if c == '(' then .lparen :: lexGoF fuel cs
    else if c == ')' then .rparen :: lexGoF fuel cs
    else if c.isDigit then
      lexInt (c :: cs.takeWhile Char.isDigit) ::
        lexGoF fuel (cs.dropWhile Char.isDigit)
    else if c == quoteChar then
      match cs.dropWhile (fun d => d ≠ quoteChar) with
      | _ :: rest =>
        if (cs.takeWhile (fun d => d ≠ quoteChar)).isEmpty then
          .errTok :: lexGoF fuel cs
        else
          .strT ((cs.takeWhile (fun d => d ≠ quoteChar)).map Char.toNat) ::
            lexGoF fuel rest
      | [] => .errTok :: lexGoF fuel cs
    else if c.isAlpha then
      .ident (String.mk (c :: cs.takeWhile Char.isAlpha)) ::
        lexGoF fuel (cs.dropWhile Char.isAlpha)
    else .errTok :: lexGoF fuel cs

/-- Tokenise a string. -/
def lexStr (s : String) : List Tok := lexGoF (s.toList.length + 1) s.toList

/-! ## Scopes (`la-parse/src/scope.rs`)

A scope is the chain of frames, innermost first; the root scope
(`Scope::new(None, [])`) is a single empty frame.  Each frame's `HashMap`
assigns indices by `enumerate`, later duplicates overwriting earlier ones. -/

/-- A scope chain, innermost frame first. -/
abbrev PScope := List (List String)

/-- Index of a name in one frame's map: the position of its last
occurrence, since `collect` into a `HashMap` lets later pairs win. -/
def frameIdx (names : List String) (nm : String) : Option Nat :=
  ((names.enum.filter (fun p => p.2 == nm)).getLast?).map Prod.fst

/-- The loop of `Scope::get`: on a miss, move to the parent and add the
parent frame's size to the shift. -/
def scopeGetAux : List (List String) → String → Nat → Option Nat
  | [], _, _ => none
  | f :: rest, nm, shift =>
    match frameIdx f nm with
    | some i => some (i + shift)
    | none =>
      match rest with
      | [] => none
      | parent :: _ => scopeGetAux rest nm (shift + parent.length)

/-- `Scope::get`. -/
def scopeGet (sc : PScope) (nm : String) : Option Nat := scopeGetAux sc nm 0

/-! ## Parser (`la-parse/src/parse.rs`)

Every failure path in the parser is a `todo!()` (`parse_term_1`'s catch-all
arm, `parse_identifier`, `parse_exact`, and the end of the `parse_comma`
loop); the `Error` type of `error.rs` is only ever created from an
allocation failure, which is out of scope here.  So a parse result is
either a term, the `ptodo` panic, or the artificial `fuelOut` cutoff of the
fuel parameter, which is a totality device only: every recursive call of
the Rust parser consumes at least one token, and the wrapper `parseTop`
passes more fuel than the number of calls any token stream can cause. -/

/-- How a parse fails: `perr` is the opaque `la_parse::Error` value, `ptodo`
the `todo!()` panic, `fuelOut` the artificial fuel cutoff. -/
inductive PFail where
  | perr
  | ptodo
  | fuelOut
deriving DecidableEq, Repr

/-- Result type of the embedded parser. -/
abbrev PRes (α : Type) := Except PFail α

/-- `parse_strictness` followed by `parse_identifier`, i.e.
`parse_parameter` (the interner lookup cannot fail here). -/
def parseParameter : List Tok → PRes (Param × List Tok)
  | .tilde :: rest =>
    match rest with
    | .ident nm :: rest2 => .ok (⟨false, nm⟩, rest2)
    | _ => .error .ptodo
  | .ident nm :: rest => .ok (⟨true, nm⟩, rest)
  | _ => .error .ptodo

mutual

/-- `parse_term` (= `parse_term_2`). -/
def parseTermF : Nat → PScope → List Tok → PRes (LTerm × List Tok)
  | 0, _, _ => .error .fuelOut
  | fuel + 1, sc, toks =>
    match parseTerm1 fuel sc toks with
    | .error e => .error e
    | .ok (t, toks2) => parseAppChain fuel sc t toks2

/-- The `while let` loop of `parse_term_2`, chaining argument lists
left-associatively. -/
def parseAppChain : Nat → PScope → LTerm → List Tok → PRes (LTerm × List Tok)
  | 0, _, _, _ => .error .fuelOut
  | fuel + 1, sc, t, toks =>
    match parseArgList fuel sc toks with
    | .error e => .error e
    | .ok (none, toks2) => .ok (t, toks2)
    | .ok (some args, toks2) => parseAppChain fuel sc (.app t args) toks2

/-- `parse_term_1`: lambda, parenthesised term, integer, string or
identifier; any other (or missing) token hits `todo!()`. -/
def parseTerm1 : Nat → PScope → List Tok → PRes (LTerm × List Tok)
  | 0, _, _ => .error .fuelOut
  | fuel + 1, sc, toks =>
    match toks with
    | .pipe :: rest =>
      match parseCommaParams fuel rest with
      | .error e => .error e
      | .ok (params, rest2) =>
        match parseTermF fuel ((params.map Param.name) :: sc) rest2 with
        | .error e => .error e
        | .ok (body, rest3) => .ok (.lam params body, rest3)
    | .lparen :: rest =>
      match parseTermF fuel sc rest with
      | .error e => .error e
      | .ok (t, rest2) =>
        match rest2 with
        | .rparen :: rest3 => .ok (t, rest3)
        | _ => .error .ptodo
    | .int v :: rest => .ok (.integer v, rest)
    | .strT bs :: rest => .ok (.str bs, rest)
    | .ident nm :: rest =>
      match scopeGet sc nm with
      | some i => .ok (.var i, rest)
      | none => .ok (.symbol nm, rest)
    | _ => .error .ptodo

/-- `parse_comma` instantiated for lambda parameter lists (terminator `|`,
element `parse_parameter`), trailing comma tolerated. -/
def parseCommaParams : Nat → List Tok → PRes (List Param × List Tok)
  | 0, _ => .error .fuelOut
  | fuel + 1, toks =>
    match toks with
    | .pipe :: rest => .ok ([], rest)
    | _ => parseCommaParamsLoop fuel toks

/-- The loop of `parse_comma` for parameter lists. -/
def parseCommaParamsLoop : Nat → List Tok → PRes (List Param × List Tok)
  | 0, _ => .error .fuelOut
  | fuel + 1, toks =>
    match parseParameter toks with
    | .error e => .error e
    | .ok (pr, toks2) =>
      match toks2 with
      | .comma :: rest =>
        match rest with
        | .pipe :: rest2 => .ok ([pr], rest2)
        | _ =>
          match parseCommaParamsLoop fuel rest with
          | .error e => .error e
          | .ok (prs, rest2) => .ok (pr :: prs, rest2)
      | .pipe :: rest => .ok ([pr], rest)
      | _ => .error .ptodo

/-- `parse_argument_list`: `None` when the next token is not `(`. -/
def parseArgList :
    Nat → PScope → List Tok → PRes (Option (List LTerm) × List Tok)
  | 0, _, _ => .error .fuelOut
  | fuel + 1, sc, toks =>
    match toks with
    | .lparen :: rest =>
      match parseCommaArgs fuel sc rest with
      | .error e => .error e
      | .ok (args, rest2) => .ok (some args, rest2)
    | _ => .ok (none, toks)

/-- `parse_comma` instantiated for argument lists (terminator `)`,
element `parse_term`). -/
def parseCommaArgs : Nat → PScope → List Tok → PRes (List LTerm × List Tok)
  | 0, _, _ => .error .fuelOut
  | fuel + 1, sc, toks =>
    match toks with
    | .rparen :: rest => .ok ([], rest)
    | _ => parseCommaArgsLoop fuel sc toks

/-- The loop of `parse_comma` for argument lists. -/
def parseCommaArgsLoop : Nat → PScope → List Tok → PRes (List LTerm × List Tok)
  | 0, _, _ => .error .fuelOut
  | fuel + 1, sc, toks =>
    match parseTermF fuel sc toks with
    | .error e => .error e
    | .ok (el, toks2) =>
      match toks2 with
      | .comma :: rest =>
        match rest with
        | .rparen :: rest2 => .ok ([el], rest2)
        | _ =>
          match parseCommaArgsLoop fuel sc rest with
          | .error e => .error e
          | .ok (els, rest2) => .ok (el :: els, rest2)
      | .rparen :: rest => .ok ([el], rest)
      | _ => .error .ptodo

end

/-- Lex and parse a whole input string against the root scope, as the
`la-parse-demo` and `librealgebra` binaries do (tokens after the parsed
term are ignored). -/
def parseTop (s : String) : PRes LTerm :=
  match parseTermF (4 * (lexStr s).length + 8) [[]] (lexStr s) with
  | .error e => .error e
  | .ok (t, _) => .ok t

end LibreAlgebra

namespace LibreAlgebra

/-! ## Theorems

First the De Bruijn cache invariants (claim C1), then the simplifier and
parser properties. -/

theorem lor_unknown_left {b : Nat} (hb : b < 65536) :
    65535 ||| b = 65535 := by
  apply Nat.eq_of_testBit_eq
  intro i
  rcases lt_or_le i 16 with hi | hi
  · have h1 : (65535 : Nat).testBit i = true := by
      have : (65535 : Nat) = 2 ^ 16 - 1 := by norm_num
      rw [this, Nat.testBit_two_pow_sub_one]
      simpa using hi
    simp [Nat.testBit_or, h1]
  · have h1 : (65535 : Nat).testBit i = false := by
      apply Nat.testBit_eq_false_of_lt
      calc (65535 : Nat) < 2 ^ 16 := by norm_num
        _ ≤ 2 ^ i := Nat.pow_le_pow_right (by norm_num) hi
    have h2 : b.testBit i = false := by
      apply Nat.testBit_eq_false_of_lt
      calc b < 65536 := hb
        _ = 2 ^ 16 := by norm_num
        _ ≤ 2 ^ i := Nat.pow_le_pow_right (by norm_num) hi
    simp [Nat.testBit_or, h1, h2]

theorem lor_unknown_right {a : Nat} (ha : a < 65536) :
    a ||| 65535 = 65535 := by
  rw [Nat.lor_comm]
  exact lor_unknown_left ha

mutual

theorem dbCache_lt : ∀ t : LTerm, dbCache t < 65536
  | .var i => by
    rw [dbCache]
    unfold cacheInsert cacheUnknown cacheEmpty
    split
    · norm_num
    · next hle =>
      have hi : i < 16 := by omega
      have h1 : (0 ||| 1 <<< i : Nat) = 2 ^ i := by
        rw [Nat.zero_or, Nat.shiftLeft_eq, one_mul]
      rw [h1]
      have : (2 : Nat) ^ i < 2 ^ 16 := Nat.pow_lt_pow_right (by norm_num) hi
      omega
  | .app f args => by
    rw [dbCache]
    unfold cacheOr
    have h : (65536 : Nat) = 2 ^ 16 := by norm_num
    rw [h]
    exact Nat.or_lt_two_pow (h ▸ dbCache_lt f) (h ▸ dbCacheList_lt args)
  | .lam ps body => by
    rw [dbCache]
    unfold cacheShr cacheIsUnknown cacheUnknown
    have hb := dbCache_lt body
    split
    · exact hb
    · split
      · norm_num
      · have : dbCache body >>> ps.length ≤ dbCache body := by
          rw [Nat.shiftRight_eq_div_pow]
          exact Nat.div_le_self _ _
        omega
  | .integer _ => by rw [dbCache]; norm_num [cacheEmpty]
  | .str _ => by rw [dbCache]; norm_num [cacheEmpty]
  | .symbol _ => by rw [dbCache]; norm_num [cacheEmpty]

theorem dbCacheList_lt : ∀ ts : List LTerm, dbCacheList ts < 65536
  | [] => by rw [dbCacheList]; norm_num [cacheEmpty]
  | t :: ts => by
    rw [dbCacheList]
    unfold cacheOr
    have h : (65536 : Nat) = 2 ^ 16 := by norm_num
    rw [h]
    exact Nat.or_lt_two_pow (h ▸ dbCache_lt t) (h ▸ dbCacheList_lt ts)

end

mutual

theorem cacheSound : ∀ t : LTerm, dbCache t ≠ cacheUnknown →
    ∀ i, freeOccur i t = true → i < 16 ∧ (dbCache t).testBit i = true
  | .var j, hnu, i, hf => by
    rw [freeOccur] at hf
    have hij : j = i := by simpa using hf
    subst hij
    rw [dbCache] at hnu ⊢
    unfold cacheInsert cacheUnknown cacheEmpty at hnu ⊢
    rcases lt_or_le j 16 with hj | hj
    · rw [if_neg (by omega)]
      refine ⟨hj, ?_⟩
      have h1 : (0 ||| 1 <<< j : Nat) = 2 ^ j := by
        rw [Nat.zero_or, Nat.shiftLeft_eq, one_mul]
      rw [h1]
      exact Nat.testBit_two_pow_self
    · exact absurd (if_pos (by omega)) (fun h => hnu (h ▸ rfl))
  | .app f args, hnu, i, hf => by
    rw [dbCache] at hnu ⊢
    rw [freeOccur] at hf
    unfold cacheOr at hnu ⊢
    have hnf : dbCache f ≠ cacheUnknown := by
      intro h
      exact hnu (by
        unfold cacheUnknown at h ⊢
        rw [h, lor_unknown_left (dbCacheList_lt args)])
    have hna : dbCacheList args ≠ cacheUnknown := by
      intro h
      exact hnu (by
        unfold cacheUnknown at h ⊢
        rw [h, lor_unknown_right (dbCache_lt f)])
    rcases Bool.or_eq_true_iff.mp hf with h1 | h1
    · obtain ⟨hi, hb⟩ := cacheSound f hnf i h1
      exact ⟨hi, by simp [Nat.testBit_or, hb]⟩
    · obtain ⟨hi, hb⟩ := cacheSoundList args hna i h1
      exact ⟨hi, by simp [Nat.testBit_or, hb]⟩
  | .lam ps body, hnu, i, hf => by
    rw [dbCache] at hnu ⊢
    rw [freeOccur] at hf
    unfold cacheShr cacheIsUnknown at hnu ⊢
    have hnb : dbCache body ≠ cacheUnknown := by
      intro h
      apply hnu
      rw [if_pos (by simp [h, cacheUnknown])]
      exact h
    obtain ⟨hik, hb⟩ := cacheSound body hnb (i + ps.length) hf
    have hk : ps.length < 16 := by omega
    have hcond : (dbCache body == cacheUnknown) = false := by
      simpa using hnb
    rw [if_neg (by simp [hcond]), if_neg (by omega)]
    refine ⟨by omega, ?_⟩
    rw [Nat.testBit_shiftRight]
    have : ps.length + i = i + ps.length := by omega
    rw [this]
    exact hb
  | .integer _, _, i, hf => by rw [freeOccur] at hf; cases hf
  | .str _, _, i, hf => by rw [freeOccur] at hf; cases hf
  | .symbol _, _, i, hf => by rw [freeOccur] at hf; cases hf

theorem cacheSoundList : ∀ ts : List LTerm, dbCacheList ts ≠ cacheUnknown →
    ∀ i, freeOccurList i ts = true →
      i < 16 ∧ (dbCacheList ts).testBit i = true
  | [], _, i, hf => by rw [freeOccurList] at hf; cases hf
  | t :: ts, hnu, i, hf => by
    rw [dbCacheList] at hnu ⊢
    rw [freeOccurList] at hf
    unfold cacheOr at hnu ⊢
    have hnt : dbCache t ≠ cacheUnknown := by
      intro h
      exact hnu (by
        unfold cacheUnknown at h ⊢
        rw [h, lor_unknown_left (dbCacheList_lt ts)])
    have hns : dbCacheList ts ≠ cacheUnknown := by
      intro h
      exact hnu (by
        unfold cacheUnknown at h ⊢
        rw [h, lor_unknown_right (dbCache_lt t)])
    rcases Bool.or_eq_true_iff.mp hf with h1 | h1
    · obtain ⟨hi, hb⟩ := cacheSound t hnt i h1
      exact ⟨hi, by simp [Nat.testBit_or, hb]⟩
    · obtain ⟨hi, hb⟩ := cacheSoundList ts hns i h1
      exact ⟨hi, by simp [Nat.testBit_or, hb]⟩

end

end LibreAlgebra

namespace LibreAlgebra

theorem foldl_cacheOr (l : List LTerm) :
    ∀ acc : Nat, (l.map dbCache).foldl cacheOr acc =
      cacheOr acc (dbCacheList l) := by
  induction l with
  | nil =>
    intro acc
    rw [dbCacheList]
    simp [cacheOr, cacheEmpty]
  | cons t ts ih =>
    intro acc
    rw [dbCacheList]
    simp only [List.map_cons, List.foldl_cons, ih]
    unfold cacheOr
    rw [Nat.or_assoc]

/-- C1.  Every constructor's header cache follows the composition rule of
spec §3.3 (`Variable(i)` is `EMPTY.insert(i)`; `Application` is the OR of
the caches of the function and the arguments; `Lambda` is the body's cache
shifted right by the parameter count; `Integer`, `String` and `Symbol` are
`EMPTY`), and the cache is sound: when `contains(i)` answers `Some(false)`,
variable `i` has no free occurrence in the term. -/
theorem c1_cache_composition_and_soundness :
    (∀ i, dbCache (.var i) = cacheInsert cacheEmpty i)
    ∧ (∀ f args, dbCache (.app f args) =
        (args.map dbCache).foldl cacheOr (dbCache f))
    ∧ (∀ ps b, dbCache (.lam ps b) = cacheShr (dbCache b) ps.length)
    ∧ (∀ v, dbCache (.integer v) = cacheEmpty)
    ∧ (∀ bs, dbCache (.str bs) = cacheEmpty)
    ∧ (∀ nm, dbCache (.symbol nm) = cacheEmpty)
    ∧ (∀ t i, cacheContains (dbCache t) i = some false →
        freeOccur i t = false) := by
  refine ⟨fun i => by rw [dbCache],
    fun f args => by rw [dbCache, foldl_cacheOr],
    fun ps b => by rw [dbCache],
    fun v => by rw [dbCache],
    fun bs => by rw [dbCache],
    fun nm => by rw [dbCache],
    fun t i hc => ?_⟩
  unfold cacheContains cacheIsUnknown at hc
  by_contra hocc
  have hocc2 : freeOccur i t = true := by
    cases h : freeOccur i t
    · exact absurd h hocc
    · rfl
  split at hc
  · cases hc
  · next hnu =>
    have hnu2 : dbCache t ≠ cacheUnknown := by
      unfold cacheUnknown
      simpa using hnu
    obtain ⟨hi, hb⟩ := cacheSound t hnu2 i hocc2
    split at hc
    · omega
    · simp [hb] at hc

/-- Witness for C1: the integer term `5` has the `EMPTY` cache, whose
`contains(3)` answers `Some(false)`, so variable 3 does not occur free. -/
theorem c1_witness :
    cacheContains (dbCache (.integer 5)) 3 = some false
    ∧ freeOccur 3 (.integer 5) = false :=
  ⟨by decide,
    c1_cache_composition_and_soundness.2.2.2.2.2.2 (.integer 5) 3 (by decide)⟩

end LibreAlgebra

namespace LibreAlgebra

/-! ### Underflow safety (claim C10)

`recurse` can only hit the `limit - 1` underflow when invoked at budget
zero; the following lemmas show this never happens inside `simplify`,
because `simplify` returns before dispatching whenever the budget is zero,
and so every nested `recurse` runs at a positive budget. -/

theorem ofTerm_noUnderflow (recF : LTerm → SRes) (c : SCtx) (p : Nat)
    (h : ∀ u, recF u ≠ Except.error Crash.underflow) :
    ∀ t, ofTerm recF c p t ≠ Except.error Crash.underflow := by
  refine ofTerm.induct recF c p _
    (fun ts => ofAddCollect recF c p ts ≠ Except.error Crash.underflow)
    ?_ ?_ ?_ ?_ ?_ ?_ ?_ ?_ ?_ ?_ ?_ ?_ ?_ ?_ ?_
  · intro t hconst hcontra
    rw [ofTerm.eq_def] at hcontra
    rw [if_pos hconst] at hcontra
    simp at hcontra
  · intro hconst hcontra
    rw [ofTerm.eq_def] at hcontra
    rw [if_neg hconst, if_pos rfl] at hcontra
    simp at hcontra
  · intro args e heq hc hv ih2 hcontra
    rw [ofTerm.eq_def] at hcontra
    rw [if_neg hc, if_neg hv] at hcontra
    simp [heq] at hcontra
    exact ih2 (hcontra ▸ heq)
  · intro args heq hc hv ih2 hcontra
    rw [ofTerm.eq_def] at hcontra
    rw [if_neg hc, if_neg hv] at hcontra
    simp [heq] at hcontra
  · intro args ds heq e herr hc hv ih2 hcontra
    rw [ofTerm.eq_def] at hcontra
    rw [if_neg hc, if_neg hv] at hcontra
    simp [heq, herr] at hcontra
    exact h _ (hcontra ▸ herr)
  · intro args ds heq r snd hok hc hv ih2 hcontra
    rw [ofTerm.eq_def] at hcontra
    rw [if_neg hc, if_neg hv] at hcontra
    simp [heq, hok] at hcontra
  · intro f args hne hc hv hcontra
    rw [ofTerm.eq_def] at hcontra
    rw [if_neg hc, if_neg hv] at hcontra
    simp [hne] at hcontra
  · intro t hc hv hnotapp hcontra
    rw [ofTerm.eq_def] at hcontra
    rw [if_neg hc, if_neg hv] at hcontra
    cases t <;> first
      | exact hnotapp _ _ rfl
      | simp at hcontra
  · intro hcontra
    rw [ofAddCollect.eq_def] at hcontra
    simp at hcontra
  · intro t ts hk e herr ih1 hcontra
    rw [ofAddCollect.eq_def] at hcontra
    simp [hk, herr] at hcontra
    exact ih1 (hcontra ▸ herr)
  · intro t ts hk hok ih1 hcontra
    rw [ofAddCollect.eq_def] at hcontra
    simp [hk, hok] at hcontra
  · intro t ts hk d hd e herr ih1 ih2 hcontra
    rw [ofAddCollect.eq_def] at hcontra
    simp [hk, hd, herr] at hcontra
    exact ih2 (hcontra ▸ herr)
  · intro t ts hk d hd hnone ih1 ih2 hcontra
    rw [ofAddCollect.eq_def] at hcontra
    simp [hk, hd, hnone] at hcontra
  · intro t ts hk d hd ds hds ih1 ih2 hcontra
    rw [ofAddCollect.eq_def] at hcontra
    simp [hk, hd, hds] at hcontra
  · intro t ts hnk ih2 hcontra
    rw [ofAddCollect.eq_def] at hcontra
    simp [hnk] at hcontra
    exact ih2 hcontra

theorem ofFunction_noUnderflow (recF : LTerm → SRes) (c : SCtx) (f : LTerm)
    (h : ∀ u, recF u ≠ Except.error Crash.underflow) :
    ofFunction recF c f ≠ Except.error Crash.underflow := by
  intro hcontra
  rw [ofFunction.eq_def] at hcontra
  split_ifs at hcontra with h1 h2
  cases f with
  | lam ps body =>
    by_cases hl : ps.length = 1
    · cases hot : ofTerm recF c 0 body with
      | error e =>
        simp [hl, hot] at hcontra
        exact ofTerm_noUnderflow recF c 0 h body (hcontra ▸ hot)
      | ok o =>
        cases o <;> simp [hl, hot] at hcontra
    · simp [hl] at hcontra
  | app f2 args => simp at hcontra
  | integer v => simp at hcontra
  | str bs => simp at hcontra
  | symbol nm => simp at hcontra
  | var i => simp at hcontra

theorem cosHandler_noUnderflow (recF : LTerm → SRes) (c : SCtx)
    (args : List LTerm) (h : ∀ u, recF u ≠ Except.error Crash.underflow) :
    cosHandler recF c args ≠ Except.error Crash.underflow := by
  intro hcontra
  rcases args with _ | ⟨x, _ | ⟨y, rest⟩⟩
  · rw [cosHandler.eq_def] at hcontra
    simp at hcontra
  · simp only [cosHandler] at hcontra
    cases hx : recF x with
    | error e =>
      rw [hx] at hcontra
      simp at hcontra
      exact h x (hcontra ▸ hx)
    | ok pr =>
      obtain ⟨op, same⟩ := pr
      simp only [hx] at hcontra
      split_ifs at hcontra
  · rw [cosHandler.eq_def] at hcontra
    simp at hcontra

theorem sinHandler_noUnderflow (recF : LTerm → SRes) (c : SCtx)
    (args : List LTerm) (h : ∀ u, recF u ≠ Except.error Crash.underflow) :
    sinHandler recF c args ≠ Except.error Crash.underflow := by
  intro hcontra
  rcases args with _ | ⟨x, _ | ⟨y, rest⟩⟩
  · rw [sinHandler.eq_def] at hcontra
    simp at hcontra
  · simp only [sinHandler] at hcontra
    cases hx : recF x with
    | error e =>
      rw [hx] at hcontra
      simp at hcontra
      exact h x (hcontra ▸ hx)
    | ok pr =>
      obtain ⟨op, same⟩ := pr
      simp only [hx] at hcontra
      split_ifs at hcontra
  · rw [sinHandler.eq_def] at hcontra
    simp at hcontra

theorem derivativeHandler_noUnderflow (recF : LTerm → SRes) (c : SCtx)
    (args : List LTerm) (h : ∀ u, recF u ≠ Except.error Crash.underflow) :
    derivativeHandler recF c args ≠ Except.error Crash.underflow := by
  intro hcontra
  rcases args with _ | ⟨a, _ | ⟨y, rest⟩⟩
  · rw [derivativeHandler.eq_def] at hcontra
    simp at hcontra
  · simp only [derivativeHandler] at hcontra
    cases ha : recF a with
    | error e =>
      rw [ha] at hcontra
      simp at hcontra
      exact h a (hcontra ▸ ha)
    | ok pr =>
      obtain ⟨f, same⟩ := pr
      simp only [ha] at hcontra
      cases hof : ofFunction recF c f with
      | error e =>
        simp only [hof] at hcontra
        simp at hcontra
        exact ofFunction_noUnderflow recF c f h (hcontra ▸ hof)
      | ok o =>
        simp only [hof] at hcontra
        cases o with
        | none => split_ifs at hcontra
        | some d => simp at hcontra
  · rw [derivativeHandler.eq_def] at hcontra
    simp at hcontra

theorem appDispatch_noUnderflow (recF : LTerm → SRes) (c : SCtx)
    (nm : String) (args : List LTerm)
    (h : ∀ u, recF u ≠ Except.error Crash.underflow) :
    appDispatch recF c nm args ≠ Except.error Crash.underflow := by
  intro hcontra
  rw [appDispatch.eq_def] at hcontra
  split_ifs at hcontra
  · exact derivativeHandler_noUnderflow recF c args h hcontra
  · exact cosHandler_noUnderflow recF c args h hcontra
  · exact sinHandler_noUnderflow recF c args h hcontra

theorem goApplication_noUnderflow (recF : LTerm → SRes) (c : SCtx)
    (f : LTerm) (args : List LTerm)
    (h : ∀ u, recF u ≠ Except.error Crash.underflow) :
    goApplication recF c f args ≠ Except.error Crash.underflow := by
  intro hcontra
  rw [goApplication.eq_def] at hcontra
  cases hf : recF f with
  | error e =>
    rw [hf] at hcontra
    simp at hcontra
    exact h f (hcontra ▸ hf)
  | ok pr =>
    rw [hf] at hcontra
    obtain ⟨f2, b⟩ := pr
    cases f2 <;> try simp at hcontra
    case symbol nm => exact appDispatch_noUnderflow recF c nm args h hcontra

theorem goSymbol_noUnderflow (recF : LTerm → SRes) (c : SCtx) (nm : String)
    (h : ∀ u, recF u ≠ Except.error Crash.underflow) :
    goSymbol recF c nm ≠ Except.error Crash.underflow := by
  intro hcontra
  rw [goSymbol.eq_def] at hcontra
  cases hs : sessionLookup c nm with
  | none => simp only [hs] at hcontra; simp at hcontra
  | some d =>
    simp only [hs] at hcontra
    split_ifs at hcontra
    cases hd : recF d with
    | error e =>
      simp only [hd] at hcontra
      simp at hcontra
      exact h d (hcontra ▸ hd)
    | ok pr => simp only [hd] at hcontra; simp at hcontra

theorem goSimplify_noUnderflow (recF : LTerm → SRes) (c : SCtx) (t : LTerm)
    (h : ∀ u, recF u ≠ Except.error Crash.underflow) :
    goSimplify recF c t ≠ Except.error Crash.underflow := by
  intro hcontra
  rw [goSimplify.eq_def] at hcontra
  split_ifs at hcontra
  · simp at hcontra
  · cases t with
    | app f args =>
      cases hga : goApplication recF c f args with
      | error e =>
        simp only [hga] at hcontra
        simp at hcontra
        exact goApplication_noUnderflow recF c f args h (hcontra ▸ hga)
      | ok o =>
        simp only [hga] at hcontra
        cases o <;> simp at hcontra
    | symbol nm => exact goSymbol_noUnderflow recF c nm h hcontra
    | integer v => simp at hcontra
    | lam ps body => simp at hcontra
    | str bs => simp at hcontra
    | var i => simp at hcontra

theorem simplifyA_noUnderflow :
    ∀ (n : Nat) (c : SCtx) (t : LTerm),
      simplifyA n c t ≠ Except.error Crash.underflow := by
  intro n
  induction n with
  | zero => intro c t hcontra; rw [simplifyA] at hcontra; cases hcontra
  | succ n ih =>
    intro c t hcontra
    rw [simplifyA] at hcontra
    exact goSimplify_noUnderflow (simplifyA n c) c t (fun u => ih c u) hcontra

end LibreAlgebra

namespace LibreAlgebra

/-! ### Unfolding lemmas for `simplifyA` at positive budget. -/

theorem simplifyA_app (n : Nat) (c : SCtx) (f : LTerm) (args : List LTerm)
    (hs : c.stopRequested = false) :
    simplifyA (n + 1) c (.app f args) =
      match goApplication (simplifyA n c) c f args with
      | .error e => .error e
      | .ok none => .ok (.app f args, true)
      | .ok (some r) => .ok (r, false) := by
  rw [simplifyA, goSimplify.eq_def, if_neg (by simp [hs])]

theorem simplifyA_symbol (n : Nat) (c : SCtx) (nm : String)
    (hs : c.stopRequested = false) :
    simplifyA (n + 1) c (.symbol nm) = goSymbol (simplifyA n c) c nm := by
  rw [simplifyA, goSimplify.eq_def, if_neg (by simp [hs])]

theorem simplifyA_integer (n : Nat) (c : SCtx) (v : Int)
    (hs : c.stopRequested = false) :
    simplifyA (n + 1) c (.integer v) = .ok (.integer v, true) := by
  rw [simplifyA, goSimplify.eq_def, if_neg (by simp [hs])]

theorem simplifyA_lam (n : Nat) (c : SCtx) (ps : List Param) (b : LTerm)
    (hs : c.stopRequested = false) :
    simplifyA (n + 1) c (.lam ps b) = .ok (.lam ps b, true) := by
  rw [simplifyA, goSimplify.eq_def, if_neg (by simp [hs])]

theorem simplifyA_str (n : Nat) (c : SCtx) (bs : List Nat)
    (hs : c.stopRequested = false) :
    simplifyA (n + 1) c (.str bs) = .ok (.str bs, true) := by
  rw [simplifyA, goSimplify.eq_def, if_neg (by simp [hs])]

theorem simplifyA_var (n : Nat) (c : SCtx) (i : Nat)
    (hs : c.stopRequested = false) :
    simplifyA (n + 1) c (.var i) = .ok (.var i, true) := by
  rw [simplifyA, goSimplify.eq_def, if_neg (by simp [hs])]

/-- C10.  The recursion budget is safe: `simplify` at budget zero returns
the input unchanged before dispatching to anything (so in particular before
any handler can call `recurse`); no run of `simplify`, at any budget,
session or input, ever reaches the underflowing `limit - 1` subtraction
that `recurse` would perform at budget zero; and at every positive budget
`recurse` is exactly `simplify` at the decremented budget (the scoped
`Guard` restores the previous value on every exit path, which the explicit
fuel threading models by construction: the caller's budget is left
untouched). -/
theorem c10_budget_safety :
    (∀ c t, simplifyA 0 c t = .ok (t, true))
    ∧ (∀ n c t, simplifyA n c t ≠ Except.error Crash.underflow)
    ∧ (∀ m c t, 0 < m → recurseA m c t = simplifyA (m - 1) c t) := by
  refine ⟨fun c t => by rw [simplifyA], simplifyA_noUnderflow,
    fun m c t hm => ?_⟩
  rw [recurseA, if_neg (by omega)]

/-- Witness for C10: both budget-bearing conjuncts at concrete inputs. -/
theorem c10_witness :
    recurseA 2 ⟨[], false⟩ (.var 0) = simplifyA 1 ⟨[], false⟩ (.var 0)
    ∧ simplifyA 3 ⟨[], false⟩ (.var 0) ≠ Except.error Crash.underflow :=
  ⟨c10_budget_safety.2.2 2 ⟨[], false⟩ (.var 0) (by decide),
    c10_budget_safety.2.1 3 ⟨[], false⟩ (.var 0)⟩

/-- C8.  `simplify` on a Symbol term: undefined symbols and reserved
symbols (`s := s`) are returned unchanged (pointer-equal, without
recursing); any other definition is simplified under the decremented
budget, the result being pointer-equal to the symbol exactly when it is
that interned symbol again. -/
theorem c8_simplify_symbol (n : Nat) (c : SCtx) (nm : String)
    (hs : c.stopRequested = false) (hn : 0 < n) :
    (sessionLookup c nm = none →
      simplifyA n c (.symbol nm) = .ok (.symbol nm, true))
    ∧ (sessionLookup c nm = some (.symbol nm) →
      simplifyA n c (.symbol nm) = .ok (.symbol nm, true))
    ∧ (∀ d, sessionLookup c nm = some d → d ≠ .symbol nm →
      simplifyA n c (.symbol nm) =
        match simplifyA (n - 1) c d with
        | .error e => .error e
        | .ok (r, _) => .ok (r, decide (r = .symbol nm))) := by
  obtain ⟨m, rfl⟩ : ∃ m, n = m + 1 := ⟨n - 1, by omega⟩
  rw [simplifyA_symbol m c nm hs]
  refine ⟨fun h => ?_, fun h => ?_, fun d h hne => ?_⟩
  · rw [goSymbol.eq_def, h]
  · rw [goSymbol.eq_def, h]
    simp
  · rw [goSymbol.eq_def, h]
    simp only [Nat.add_sub_cancel]
    rw [if_neg hne]

/-- Witness for C8: with the session `A := 7`, simplifying the symbol `A`
is simplifying its definition at the decremented budget. -/
theorem c8_witness :
    simplifyA 1 ⟨[("A", .integer 7)], false⟩ (.symbol "A") =
      match simplifyA 0 ⟨[("A", .integer 7)], false⟩ (.integer 7) with
      | .error e => .error e
      | .ok (r, _) => .ok (r, decide (r = .symbol "A")) :=
  (c8_simplify_symbol 1 ⟨[("A", .integer 7)], false⟩ "A" rfl
    (by decide)).2.2 (.integer 7) rfl (by decide)

/-- Counterexample to C3 as stated: with the session `s := Foo`, the
function of `s()` simplifies to the distinct symbol `Foo` (the `false`
pointer flag), `Foo` has no handler, yet the result is the original
application `s()`, not the rebuilt `Foo()`. -/
theorem c3_counterexample :
    simplifyA 1 ⟨[("s", .symbol "Foo")], false⟩ (.symbol "s") =
      .ok (.symbol "Foo", false)
    ∧ simplifyA 2 ⟨[("s", .symbol "Foo")], false⟩ (.app (.symbol "s") []) =
      .ok (.app (.symbol "s") [], true)
    ∧ LTerm.app (.symbol "s") [] ≠ .app (.symbol "Foo") [] :=
  ⟨by decide, by decide, by decide⟩

/-- C3 as amended: when the simplified function is a Symbol with no
registered handler, or the handler returns `None`, `simplify` returns the
original application term itself (pointer-equal) — the simplified function
is discarded even when it is a distinct pointer; and a handler rewrite
replaces the whole application (with a fresh, non-pointer-equal term). -/
theorem c3_no_rewrite_keeps_original (n : Nat) (c : SCtx) (f : LTerm)
    (args : List LTerm) (nm : String) (b : Bool)
    (hs : c.stopRequested = false)
    (hf : simplifyA n c f = .ok (.symbol nm, b)) :
    (appDispatch (simplifyA n c) c nm args = .ok none →
      simplifyA (n + 1) c (.app f args) = .ok (.app f args, true))
    ∧ (∀ r, appDispatch (simplifyA n c) c nm args = .ok (some r) →
      simplifyA (n + 1) c (.app f args) = .ok (r, false)) := by
  have hga : ∀ o, appDispatch (simplifyA n c) c nm args = .ok o →
      goApplication (simplifyA n c) c f args = .ok o := by
    intro o ho
    rw [goApplication.eq_def, hf]
    exact ho
  refine ⟨fun h => ?_, fun r h => ?_⟩
  · rw [simplifyA_app n c f args hs, hga none h]
  · rw [simplifyA_app n c f args hs, hga (some r) h]

/-- Witness for C3 (amended): `Foo` has no handler, so `Foo()` simplifies
to itself. -/
theorem c3_witness :
    simplifyA 2 ⟨[], false⟩ (.app (.symbol "Foo") []) =
      .ok (.app (.symbol "Foo") [], true) :=
  (c3_no_rewrite_keeps_original 1 ⟨[], false⟩ (.symbol "Foo") [] "Foo" true
    rfl (by decide)).1 (by decide)

/-- C5's failing input: the function of the application `0()` simplifies to
the integer `0`, which is not a Symbol, and `simplify_application` hits its
`todo!()` and panics instead of degrading to "no rewrite". -/
theorem c5_todo_panic_on_non_symbol_head :
    simplifyA 1 ⟨[], false⟩ (.app (.integer 0) []) =
      .error Crash.todo := by
  decide

/-- C7's failing input: `Cos` applied to zero arguments (and to two
arguments) returns `None`, but no warning is emitted anywhere — warning is
a `TODO` in `builtins/Cos.rs` and the `Warner` trait has no methods. -/
theorem c7_cos_arity_returns_none_without_warning :
    cosHandler (recurseA 1 ⟨[], false⟩) ⟨[], false⟩ [] = .ok none
    ∧ cosHandler (recurseA 1 ⟨[], false⟩) ⟨[], false⟩
        [integer_0, integer_0] = .ok none :=
  ⟨rfl, rfl⟩

end LibreAlgebra

namespace LibreAlgebra

/-! ### The sum rule of the Derivative handler (claim C4). -/

theorem ofAddCollect_filter (recF : LTerm → SRes) (c : SCtx) (p : Nat)
    (ts : List LTerm) :
    ofAddCollect recF c p
        (ts.filter (fun t => isConstant p t == some false)) =
      ofAddCollect recF c p ts := by
  induction ts with
  | nil => rfl
  | cons t ts ih =>
    by_cases hk : (isConstant p t == some false) = true
    · rw [List.filter_cons, if_pos hk]
      simp only [ofAddCollect, hk, if_true, ih]
    · rw [List.filter_cons, if_neg (by simpa using hk)]
      have hrhs : ofAddCollect recF c p (t :: ts) =
          ofAddCollect recF c p ts := by
        rw [ofAddCollect.eq_def]
        simp [hk]
      rw [hrhs, ih]

theorem ofAddCollect_of_forall2 (recF : LTerm → SRes) (c : SCtx) (p : Nat) :
    ∀ (l ds : List LTerm),
      (∀ t ∈ l, (isConstant p t == some false) = true) →
      List.Forall₂ (fun t d => ofTerm recF c p t = .ok (some d)) l ds →
      ofAddCollect recF c p l = .ok (some ds) := by
  intro l ds hk hf
  induction hf with
  | nil => rfl
  | cons ht hrest ih =>
    next t d l2 ds2 =>
      have hkt : (isConstant p t == some false) = true :=
        hk t (List.mem_cons_self t l2)
      have hkr : ∀ u ∈ l2, (isConstant p u == some false) = true :=
        fun u hu => hk u (List.mem_cons_of_mem t hu)
      simp only [ofAddCollect, hkt, if_true, ht, ih hkr]

theorem ofAddCollect_none (recF : LTerm → SRes) (c : SCtx) (p : Nat) :
    ∀ l : List LTerm,
      (∀ t ∈ l, (isConstant p t == some false) = true) →
      (∀ t ∈ l, ∃ o, ofTerm recF c p t = .ok o) →
      (∃ t ∈ l, ofTerm recF c p t = .ok none) →
      ofAddCollect recF c p l = .ok none := by
  intro l
  induction l with
  | nil =>
    intro _ _ hex
    obtain ⟨t, ht, _⟩ := hex
    cases ht
  | cons t ts ih =>
    intro hk hok hex
    have hkt := hk t (List.mem_cons_self t ts)
    obtain ⟨o, ho⟩ := hok t (List.mem_cons_self t ts)
    cases o with
    | none => simp only [ofAddCollect, hkt, if_true, ho]
    | some d =>
      have hrest : ∃ u ∈ ts, ofTerm recF c p u = .ok none := by
        obtain ⟨u, hu, hun⟩ := hex
        rcases List.mem_cons.mp hu with rfl | hu2
        · rw [ho] at hun
          cases hun
        · exact ⟨u, hu2, hun⟩
      have hcoll := ih (fun u hu => hk u (List.mem_cons_of_mem t hu))
        (fun u hu => hok u (List.mem_cons_of_mem t hu)) hrest
      simp only [ofAddCollect, hkt, if_true, ho, hcoll]

/-- Counterexample to C4 as stated: the summand `Foo(Variable 20)` has an
UNKNOWN cache (`contains(0)` answers `None`, so the cache does not prove it
constant) and it fails to differentiate (`of_term` returns `None`), so by
the claim the whole sum-rule application should fail; but `of_add` silently
drops it (its filter keeps only terms with `is_constant == Some(false)`)
and returns the derivative `0` of the empty remaining sum. -/
theorem c4_counterexample :
    cacheContains (dbCache (.app (.symbol "Foo") [.var 20])) 0 = none
    ∧ ofTerm (recurseA 1 ⟨[], false⟩) ⟨[], false⟩ 0
        (.app (.symbol "Foo") [.var 20]) = .ok none
    ∧ ofAdd (recurseA 1 ⟨[], false⟩) ⟨[], false⟩ 0
        [.app (.symbol "Foo") [.var 20]] = .ok (some integer_0) :=
  ⟨by decide, by decide, by decide⟩

/-- C4 as amended: `of_add` drops exactly those summands whose cache does
not prove the variable present (`is_constant(p, t) ≠ Some(false)`, i.e.
`contains(p) ≠ Some(true)`), so dropped terms — including those with
unknown caches — never influence the result; when every kept summand
differentiates, the result is the rebuilt sum of the derivatives
(`make_add`: no terms → integer 0, one term → that term, else `Add`)
simplified through `recurse`; and the operation fails (returns `None`)
when a kept summand fails to differentiate. -/
theorem c4_sum_rule (recF : LTerm → SRes) (c : SCtx) (p : Nat)
    (ts : List LTerm) :
    (ofAdd recF c p ts =
      ofAdd recF c p (ts.filter (fun t => isConstant p t == some false)))
    ∧ (∀ ds, List.Forall₂ (fun t d => ofTerm recF c p t = .ok (some d))
        (ts.filter (fun t => isConstant p t == some false)) ds →
        ofAdd recF c p ts =
          Except.map (fun pr => some pr.1) (recF (makeAdd ds)))
    ∧ ((∀ t ∈ ts.filter (fun t => isConstant p t == some false),
          ∃ o, ofTerm recF c p t = .ok o) →
       (∃ t ∈ ts.filter (fun t => isConstant p t == some false),
          ofTerm recF c p t = .ok none) →
       ofAdd recF c p ts = .ok none) := by
  refine ⟨?_, fun ds hf => ?_, fun hok hex => ?_⟩
  · rw [ofAdd, ofAdd, ofAddCollect_filter]
  · have hcoll : ofAddCollect recF c p ts = .ok (some ds) := by
      rw [← ofAddCollect_filter recF c p ts]
      exact ofAddCollect_of_forall2 recF c p _ ds
        (fun t ht => (List.mem_filter.mp ht).2) hf
    rw [ofAdd, hcoll]
    cases hr : recF (makeAdd ds) with
    | error e => simp [Except.map, hr]
    | ok pr => simp [Except.map, hr]
  · have hcoll : ofAddCollect recF c p ts = .ok none := by
      rw [← ofAddCollect_filter recF c p ts]
      exact ofAddCollect_none recF c p _
        (fun t ht => (List.mem_filter.mp ht).2) hok hex
    rw [ofAdd, hcoll]

/-- Witness for C4 (amended): differentiating `Add(x, 5)` with respect to
index 0 keeps only `x` and yields the simplified sum of `[1]`. -/
theorem c4_witness :
    ofAdd (recurseA 1 ⟨[], false⟩) ⟨[], false⟩ 0 [.var 0, .integer 5] =
      Except.map (fun pr => some pr.1)
        (recurseA 1 ⟨[], false⟩ (makeAdd [integer_1])) :=
  (c4_sum_rule (recurseA 1 ⟨[], false⟩) ⟨[], false⟩ 0
    [.var 0, .integer 5]).2.1 [integer_1]
    (List.Forall₂.cons (by decide) List.Forall₂.nil)

end LibreAlgebra

namespace LibreAlgebra

/-! ### Idempotence of `simplify` for reserved-only sessions (claim C9). -/

theorem simplifyA_app_none (n : Nat) (c : SCtx) (f : LTerm)
    (args : List LTerm) (hs : c.stopRequested = false)
    (hga : goApplication (simplifyA n c) c f args = .ok none) :
    simplifyA (n + 1) c (.app f args) = .ok (.app f args, true) := by
  rw [simplifyA_app n c f args hs, hga]

theorem simplifyA_app_some (n : Nat) (c : SCtx) (f : LTerm)
    (args : List LTerm) (r : LTerm) (hs : c.stopRequested = false)
    (hga : goApplication (simplifyA n c) c f args = .ok (some r)) :
    simplifyA (n + 1) c (.app f args) = .ok (r, false) := by
  rw [simplifyA_app n c f args hs, hga]

theorem simplifyA_app_err (n : Nat) (c : SCtx) (f : LTerm)
    (args : List LTerm) (e : Crash) (hs : c.stopRequested = false)
    (hga : goApplication (simplifyA n c) c f args = .error e) :
    simplifyA (n + 1) c (.app f args) = .error e := by
  rw [simplifyA_app n c f args hs, hga]

theorem simplifyA_symbol_reserved (c : SCtx)
    (hr : ∀ pr ∈ c.session, pr.2 = LTerm.symbol pr.1)
    (hs : c.stopRequested = false) :
    ∀ (m : Nat) (nm : String),
      simplifyA m c (.symbol nm) = .ok (.symbol nm, true) := by
  intro m nm
  cases m with
  | zero => rw [simplifyA]
  | succ m =>
    rw [simplifyA_symbol m c nm hs, goSymbol.eq_def]
    cases hl : sessionLookup c nm with
    | none => rfl
    | some d =>
      have hd : d = .symbol nm := by
        unfold sessionLookup at hl
        obtain ⟨pr, hfind, hsnd⟩ := Option.map_eq_some'.mp hl
        have hmem : pr ∈ c.session := List.mem_of_find?_eq_some hfind
        have hname := List.find?_some hfind
        rw [← hsnd, hr pr hmem]
        have : pr.1 = nm := by simpa using hname
        rw [this]
      subst hd
      simp

theorem cosHandler_out_stable (n : Nat) (c : SCtx)
    (hr : ∀ pr ∈ c.session, pr.2 = LTerm.symbol pr.1)
    (hs : c.stopRequested = false)
    (IH : ∀ t r b, simplifyA n c t = .ok (r, b) →
      simplifyA n c r = .ok (r, true))
    (args : List LTerm) (r : LTerm)
    (h : cosHandler (simplifyA n c) c args = .ok (some r)) :
    simplifyA (n + 1) c r = .ok (r, true) := by
  rcases args with _ | ⟨x, _ | ⟨y, rest⟩⟩
  · rw [cosHandler.eq_def] at h
    simp at h
  · simp only [cosHandler] at h
    cases hx : simplifyA n c x with
    | error e => simp [hx] at h
    | ok pr =>
      obtain ⟨x2, sm⟩ := pr
      simp only [hx] at h
      by_cases h0 : x2 = .integer 0
      · rw [if_pos h0] at h
        cases h
        exact simplifyA_integer n c 1 hs
      · rw [if_neg h0] at h
        by_cases hpi : x2 = .symbol "Pi"
        · rw [if_pos hpi] at h
          cases h
          exact simplifyA_integer n c (-1) hs
        · rw [if_neg hpi] at h
          cases sm with
          | true => simp at h
          | false =>
            rw [if_neg (by simp)] at h
            cases h
            have hx2 : simplifyA n c x2 = .ok (x2, true) := IH x x2 false hx
            have hga : goApplication (simplifyA n c) c
                (.symbol "Cos") [x2] = .ok none := by
              rw [goApplication.eq_def,
                simplifyA_symbol_reserved c hr hs n "Cos"]
              show appDispatch (simplifyA n c) c "Cos" [x2] = .ok none
              rw [appDispatch.eq_def, if_neg (by decide), if_pos rfl]
              simp only [cosHandler, hx2]
              rw [if_neg h0, if_neg hpi]
              simp
            exact simplifyA_app_none n c (.symbol "Cos") [x2] hs hga
  · rw [cosHandler.eq_def] at h
    simp at h

theorem sinHandler_out_stable (n : Nat) (c : SCtx)
    (hr : ∀ pr ∈ c.session, pr.2 = LTerm.symbol pr.1)
    (hs : c.stopRequested = false)
    (IH : ∀ t r b, simplifyA n c t = .ok (r, b) →
      simplifyA n c r = .ok (r, true))
    (args : List LTerm) (r : LTerm)
    (h : sinHandler (simplifyA n c) c args = .ok (some r)) :
    simplifyA (n + 1) c r = .ok (r, true) := by
  rcases args with _ | ⟨x, _ | ⟨y, rest⟩⟩
  · rw [sinHandler.eq_def] at h
    simp at h
  · simp only [sinHandler] at h
    cases hx : simplifyA n c x with
    | error e => simp [hx] at h
    | ok pr =>
      obtain ⟨x2, sm⟩ := pr
      simp only [hx] at h
      by_cases h0 : x2 = .integer 0
      · rw [if_pos h0] at h
        cases h
        exact simplifyA_integer n c 0 hs
      · rw [if_neg h0] at h
        by_cases hpi : x2 = .symbol "Pi"
        · rw [if_pos hpi] at h
          cases h
          exact simplifyA_integer n c 0 hs
        · rw [if_neg hpi] at h
          cases sm with
          | true => simp at h
          | false =>
            rw [if_neg (by simp)] at h
            cases h
            have hx2 : simplifyA n c x2 = .ok (x2, true) := IH x x2 false hx
            have hga : goApplication (simplifyA n c) c
                (.symbol "Sin") [x2] = .ok none := by
              rw [goApplication.eq_def,
                simplifyA_symbol_reserved c hr hs n "Sin"]
              show appDispatch (simplifyA n c) c "Sin" [x2] = .ok none
              rw [appDispatch.eq_def, if_neg (by decide), if_neg (by decide),
                if_pos rfl]
              simp only [sinHandler, hx2]
              rw [if_neg h0, if_neg hpi]
              simp
            exact simplifyA_app_none n c (.symbol "Sin") [x2] hs hga
  · rw [sinHandler.eq_def] at h
    simp at h

theorem derivativeHandler_out_stable (n : Nat) (c : SCtx)
    (hr : ∀ pr ∈ c.session, pr.2 = LTerm.symbol pr.1)
    (hs : c.stopRequested = false)
    (IH : ∀ t r b, simplifyA n c t = .ok (r, b) →
      simplifyA n c r = .ok (r, true))
    (args : List LTerm) (r : LTerm)
    (h : derivativeHandler (simplifyA n c) c args = .ok (some r)) :
    simplifyA (n + 1) c r = .ok (r, true) := by
  rcases args with _ | ⟨a, _ | ⟨y, rest⟩⟩
  · rw [derivativeHandler.eq_def] at h
    simp at h
  · simp only [derivativeHandler] at h
    cases ha : simplifyA n c a with
    | error e => simp [ha] at h
    | ok pr =>
      obtain ⟨f, sm⟩ := pr
      simp only [ha] at h
      cases hof : ofFunction (simplifyA n c) c f with
      | error e => simp [hof] at h
      | ok o =>
        simp only [hof] at h
        cases o with
        | some d =>
          cases h
          rw [ofFunction.eq_def] at hof
          split_ifs at hof with h1 h2
          · cases hof
            exact simplifyA_symbol_reserved c hr hs (n + 1) "Cos"
          · cases hof
            exact simplifyA_lam n c parameters_sx
              (.app (.symbol "Multiply")
                [integer_neg_1, .app (.symbol "Sin") [.var 0]]) hs
          · cases f with
            | lam ps bd =>
              by_cases hl : ps.length = 1
              · cases hot : ofTerm (simplifyA n c) c 0 bd with
                | error e => simp [hl, hot] at hof
                | ok o2 =>
                  cases o2 with
                  | none => simp [hl, hot] at hof
                  | some bd2 =>
                    simp only [hl, if_true, hot] at hof
                    cases hof
                    exact simplifyA_lam n c ps bd2 hs
              · simp [hl] at hof
            | app f2 args2 => simp at hof
            | integer v => simp at hof
            | str bs => simp at hof
            | symbol nm => simp at hof
            | var i => simp at hof
        | none =>
          cases sm with
          | true => simp at h
          | false =>
            rw [if_neg (by simp)] at h
            cases h
            have hf2 : simplifyA n c f = .ok (f, true) := IH a f false ha
            have hga : goApplication (simplifyA n c) c
                (.symbol "Derivative") [f] = .ok none := by
              rw [goApplication.eq_def,
                simplifyA_symbol_reserved c hr hs n "Derivative"]
              show appDispatch (simplifyA n c) c "Derivative" [f] = .ok none
              rw [appDispatch.eq_def, if_pos rfl]
              simp only [derivativeHandler, hf2, hof]
              simp
            exact simplifyA_app_none n c (.symbol "Derivative") [f] hs hga
  · rw [derivativeHandler.eq_def] at h
    simp at h

theorem appDispatch_out_stable (n : Nat) (c : SCtx) (nm : String)
    (hr : ∀ pr ∈ c.session, pr.2 = LTerm.symbol pr.1)
    (hs : c.stopRequested = false)
    (IH : ∀ t r b, simplifyA n c t = .ok (r, b) →
      simplifyA n c r = .ok (r, true))
    (args : List LTerm) (r : LTerm)
    (h : appDispatch (simplifyA n c) c nm args = .ok (some r)) :
    simplifyA (n + 1) c r = .ok (r, true) := by
  rw [appDispatch.eq_def] at h
  split_ifs at h
  · exact derivativeHandler_out_stable n c hr hs IH args r h
  · exact cosHandler_out_stable n c hr hs IH args r h
  · exact sinHandler_out_stable n c hr hs IH args r h
  · simp at h

/-- C9 as amended: for a context whose stop flag is unset and whose session
definitions are all reserved (`s := s`), whenever `simplify` at budget `n`
returns a term `r`, re-running `simplify` at the same budget on `r` returns
`r` itself (pointer-equal, hence structurally equal).  No largeness
assumption on the budget is needed: budget-truncated runs return their
input unchanged, which is idempotent as well. -/
theorem c9_idempotent_reserved (c : SCtx)
    (hr : ∀ pr ∈ c.session, pr.2 = LTerm.symbol pr.1)
    (hs : c.stopRequested = false) :
    ∀ (n : Nat) (t r : LTerm) (b : Bool),
      simplifyA n c t = .ok (r, b) → simplifyA n c r = .ok (r, true) := by
  intro n
  induction n with
  | zero =>
    intro t r b h
    rw [simplifyA] at h
    cases h
    rw [simplifyA]
  | succ n ih =>
    intro t r b h
    cases t with
    | integer v =>
      rw [simplifyA_integer n c v hs] at h
      cases h
      rw [simplifyA_integer n c v hs]
    | lam ps bd =>
      rw [simplifyA_lam n c ps bd hs] at h
      cases h
      rw [simplifyA_lam n c ps bd hs]
    | str bs =>
      rw [simplifyA_str n c bs hs] at h
      cases h
      rw [simplifyA_str n c bs hs]
    | var i =>
      rw [simplifyA_var n c i hs] at h
      cases h
      rw [simplifyA_var n c i hs]
    | symbol nm =>
      rw [simplifyA_symbol_reserved c hr hs (n + 1) nm] at h
      cases h
      exact simplifyA_symbol_reserved c hr hs (n + 1) nm
    | app f args =>
      cases hga : goApplication (simplifyA n c) c f args with
      | error e =>
        rw [simplifyA_app_err n c f args e hs hga] at h
        cases h
      | ok o =>
        cases o with
        | none =>
          rw [simplifyA_app_none n c f args hs hga] at h
          cases h
          exact simplifyA_app_none n c f args hs hga
        | some r2 =>
          rw [simplifyA_app_some n c f args r2 hs hga] at h
          cases h
          rw [goApplication.eq_def] at hga
          cases hff : simplifyA n c f with
          | error e => simp [hff] at hga
          | ok pr =>
            obtain ⟨f2, bf⟩ := pr
            simp only [hff] at hga
            cases f2 with
            | symbol nm =>
              exact appDispatch_out_stable n c nm hr hs ih args _ hga
            | app f3 args3 => simp at hga
            | integer v => simp at hga
            | lam ps bd => simp at hga
            | str bs => simp at hga
            | var i => simp at hga

end LibreAlgebra

namespace LibreAlgebra

/-- Counterexample to C9 as stated: with the session `Cos := 5` (a
legitimate context) and a budget (16, and 17 likewise, so the budget is not
the limiting factor), `Derivative(Sin)` simplifies to the `Cos` symbol, but
simplifying that result again yields the integer `5`, which is not
structurally equal to `Cos`. -/
theorem c9_counterexample :
    simplifyA 16 ⟨[("Cos", .integer 5)], false⟩
        (.app (.symbol "Derivative") [.symbol "Sin"]) =
      .ok (.symbol "Cos", false)
    ∧ simplifyA 16 ⟨[("Cos", .integer 5)], false⟩ (.symbol "Cos") =
      .ok (.integer 5, false)
    ∧ simplifyA 17 ⟨[("Cos", .integer 5)], false⟩
        (.app (.symbol "Derivative") [.symbol "Sin"]) =
      .ok (.symbol "Cos", false)
    ∧ simplifyA 17 ⟨[("Cos", .integer 5)], false⟩ (.symbol "Cos") =
      .ok (.integer 5, false)
    ∧ LTerm.symbol "Cos" ≠ .integer 5 :=
  ⟨by decide, by decide, by decide, by decide, by decide⟩

/-- Witness for C9 (amended): in the empty session, `Cos(0)` simplifies to
the integer `1`, and re-simplifying that result returns it unchanged. -/
theorem c9_witness :
    simplifyA 2 ⟨[], false⟩ integer_1 = .ok (integer_1, true) :=
  c9_idempotent_reserved ⟨[], false⟩ (by simp) rfl 2
    (.app (.symbol "Cos") [.integer 0]) integer_1 false (by decide)

/-- C2's failing inputs: the parser resolves the leftmost parameter of a
lambda to De Bruijn index 0 (`Scope::new` numbers parameters by
`enumerate`), so `|x, y| x` parses to a body of `Variable(0)` and
`|x, y| y` to `Variable(1)` — the opposite of the claimed `n − 1 − k`
rule; and on a nested `|x| |y, z| x` the outer variable gets index 1
because `Scope::get` adds the parent frame's size (1) instead of the
exited inner frame's size (2). -/
theorem c2_scope_assignment_eval :
    parseTop "|x, y| x" =
      .ok (.lam [⟨true, "x"⟩, ⟨true, "y"⟩] (.var 0))
    ∧ parseTop "|x, y| y" =
      .ok (.lam [⟨true, "x"⟩, ⟨true, "y"⟩] (.var 1))
    ∧ parseTop "|x| |y, z| x" =
      .ok (.lam [⟨true, "x"⟩]
        (.lam [⟨true, "y"⟩, ⟨true, "z"⟩] (.var 1))) :=
  ⟨by decide, by decide, by decide⟩

/-- C6's failing inputs: on an unexpected token, a missing token, an
unterminated parenthesis, and an integer literal that overflows `i32`, the
parser hits one of its `todo!()` placeholders and panics instead of
returning the opaque `Error` value (which the source only ever constructs
from an allocation failure). -/
theorem c6_parse_error_is_todo_panic :
    parseTop ")" = .error .ptodo
    ∧ parseTop "" = .error .ptodo
    ∧ parseTop "(1" = .error .ptodo
    ∧ parseTop "99999999999" = .error .ptodo :=
  ⟨by decide, by decide, by decide, by decide⟩

end LibreAlgebra
